import Mathlib

/-!
Verification development for the nekoton-wasm conversion and message-construction
core: the typed-value marshalling system (host values vs strict ABI values), the
scalar codec, the schema resolver's known-value merge, the ed25519 signing
helpers, and the deferred-signing unsigned-message pipeline.

The thin wasm entry points live in `src/lib.rs`; the codec and pipeline bodies
live in modules and collaborator crates that are modelled here from the
specification where the repository source is not available.  Every definition
carries a comment naming its origin.
-/

namespace NekotonWasm

/-- Error taxonomy of the conversion core, from spec section 7. -/
inductive AbiError where
  | typeMismatch
  | outOfRange
  | invalidEncoding
  | invalidAddress
  | parameterMissing (name : String)
  | parameterConflict (name : String)
  | lengthMismatch
  | schemaParseError
  | signatureLengthMismatch
  | messageExpired
deriving DecidableEq, Repr

/-! ### Decimal digit strings

Integer scalars cross the host boundary as decimal strings (spec section 4.1).
The printer and parser below model that boundary representation; the round-trip
lemma `parseDecInt_intToDecString` is the numeric-string normalization fact the
round-trip law of section 4.2 is stated up to. -/

/-- A decimal digit character. -/
def isDigit (c : Char) : Bool := 48 ≤ c.toNat && c.toNat ≤ 57

/-- The character for one decimal digit value. -/
def digitChar (d : Nat) : Char := Char.ofNat (48 + d)

/-- Horner evaluation of a most-significant-first digit character list. -/
def digitsToNat (cs : List Char) : Nat :=
  cs.foldl (fun acc c => acc * 10 + (c.toNat - 48)) 0

/-- Parse a nonempty all-digit character list as a natural number. -/
def parseDecNatChars (cs : List Char) : Option Nat :=
  if cs.isEmpty then none
  else if cs.all isDigit then some (digitsToNat cs) else none

/-- Parse an optionally minus-signed decimal character list as an integer. -/
def parseDecIntChars (cs : List Char) : Option Int :=
  match cs with
  | [] => none
  | c :: rest =>
    if c = '-' then (parseDecNatChars rest).map fun n => -(n : Int)
    else (parseDecNatChars (c :: rest)).map fun n => (n : Int)

/-- Parse a decimal string literal as an integer. -/
def parseDecInt (s : String) : Option Int := parseDecIntChars s.data

/-- Fueled digit printer: prepends the decimal digits of `n` to `acc`. -/
def natToDecCharsAux : Nat → Nat → List Char → List Char
  | 0, _, acc => acc
  | fuel + 1, n, acc =>
    if n = 0 then acc
    else natToDecCharsAux fuel (n / 10) (digitChar (n % 10) :: acc)

/-- Most-significant-first decimal digits of a natural number; `0` prints as `"0"`. -/
def natToDecChars (n : Nat) : List Char :=
  if n = 0 then ['0'] else natToDecCharsAux n n []

/-- Canonical decimal string of an integer, as produced by the decoder. -/
def intToDecString (v : Int) : String :=
  if v < 0 then ⟨'-' :: natToDecChars (-v).toNat⟩ else ⟨natToDecChars v.toNat⟩

/-! ### Data model of the typed-value marshalling system

Modelled from the spec: the `StrictType` / `StrictValue` / `HostValue` data
model of section 3 and the structured value codec of sections 4.1 and 4.2 live
in the repository's `tokens_object` module and the nekoton collaborator crate,
neither of which is under `src/`; the definitions below follow the
specification's words.  The universe covers the boolean, fixed-width integer
and string scalars and all composite kinds (arrays, fixed arrays, tuples,
optionals, associative maps); the remaining scalar leaf kinds of section 3
(address, bytes, cell, varint, public key) follow the same total-decode /
fallible-encode scalar pattern and are not needed by the stated properties. -/

/-- One ABI parameter's shape (spec section 3, `StrictType`). -/
inductive StrictType where
  | bool
  | int (width : Nat) (signed : Bool)
  | string
  | array (elem : StrictType)
  | fixedArray (elem : StrictType) (n : Nat)
  | tuple (fields : List (String × StrictType))
  | optional (inner : StrictType)
  | map (key value : StrictType)

/-- The loosely-typed host boundary value (spec section 3, `HostValue`):
null, boolean, string (integers travel as decimal strings), ordered list,
keyed mapping. -/
inductive HostValue where
  | null
  | bool (b : Bool)
  | str (s : String)
  | list (xs : List HostValue)
  | map (entries : List (String × HostValue))

/-- The strict, schema-validated value mirroring `StrictType`
(spec section 3, `StrictValue`). -/
inductive StrictValue where
  | bool (b : Bool)
  | int (width : Nat) (signed : Bool) (v : Int)
  | str (s : String)
  | array (xs : List StrictValue)
  | fixedArray (xs : List StrictValue)
  | tuple (fields : List (String × StrictValue))
  | optionalVal (o : Option StrictValue)
  | map (entries : List (StrictValue × StrictValue))

/-- A parameter schema: ordered (name, type) pairs (spec section 3). -/
abbrev ParameterSchema := List (String × StrictType)

/-- Smallest value representable in a declared integer type. -/
def intMin (w : Nat) (signed : Bool) : Int :=
  if signed then -((2 : Int) ^ (w - 1)) else 0

/-- Largest value representable in a declared integer type. -/
def intMax (w : Nat) (signed : Bool) : Int :=
  if signed then (2 : Int) ^ (w - 1) - 1 else (2 : Int) ^ w - 1

/-- Range check for a declared integer type (spec section 4.1: `OutOfRange`
when a numeric literal does not fit the target bit width/signedness). -/
def intFits (w : Nat) (signed : Bool) (v : Int) : Bool :=
  decide (intMin w signed ≤ v ∧ v ≤ intMax w signed)

/-- Canonical host-string form of an encoded map key (integer keys print as
canonical decimal, string keys are themselves). -/
def svKeyString : StrictValue → String
  | .int _ _ v => intToDecString v
  | .str s => s
  | _ => ""

/-- Byte-wise lexicographic comparison of character lists. -/
def charListLeb : List Char → List Char → Bool
  | [], _ => true
  | _ :: _, [] => false
  | a :: as, b :: bs =>
    if a.toNat < b.toNat then true
    else if b.toNat < a.toNat then false
    else charListLeb as bs

/-- Lexicographic string comparison used to keep map entries in canonical
key order (maps are unordered at the host boundary, spec section 4.2). -/
def strLeb (a b : String) : Bool := charListLeb a.data b.data

/-- Order on encoded map entries by canonical key string. -/
def entryLeb (a b : StrictValue × StrictValue) : Bool :=
  strLeb (svKeyString a.1) (svKeyString b.1)

/-- Insert one encoded map entry into a key-ordered entry list. -/
def insertEntry (x : StrictValue × StrictValue) :
    List (StrictValue × StrictValue) → List (StrictValue × StrictValue)
  | [] => [x]
  | y :: ys => if entryLeb x y then x :: y :: ys else y :: insertEntry x ys

/-- Canonical (key-sorted) order of encoded map entries: the strict map value
is an unordered collection, represented sorted by canonical key. -/
def sortEntriesByKey : List (StrictValue × StrictValue) → List (StrictValue × StrictValue)
  | [] => []
  | x :: xs => insertEntry x (sortEntriesByKey xs)

/-- All strings in the list pairwise distinct. -/
def allDifferent : List String → Bool
  | [] => true
  | s :: rest => (!rest.contains s) && allDifferent rest

/-- Map key types are scalar key kinds with a textual normal form (integers or
strings); section 4.2's "duplicate-after-normalization" key rejection
presupposes keys with such a normalization. -/
def isMapKeyType : StrictType → Bool
  | .int _ _ => true
  | .string => true
  | _ => false

/-! ### Encoding host values against a schema (spec sections 4.1 and 4.2) -/

mutual

/-- Fallible encode of one host value against one strict type: `TypeMismatch`
when the shape cannot satisfy the type, `OutOfRange` for integer literals
outside the declared width, `LengthMismatch` for fixed arrays of the wrong
length, `InvalidEncoding` for duplicate-after-normalization map keys
(spec sections 4.1 and 4.2). -/
def encodeValue : StrictType → HostValue → Except AbiError StrictValue
  | .bool, .bool b => .ok (.bool b)
  | .bool, _ => .error .typeMismatch
  | .int w s, .str a =>
    (match parseDecInt a with
     | none => .error .typeMismatch
     | some v => if intFits w s v then .ok (.int w s v) else .error .outOfRange)
  | .int _ _, _ => .error .typeMismatch
  | .string, .str s => .ok (.str s)
  | .string, _ => .error .typeMismatch
  | .array t, .list xs => (encodeList t xs).map .array
  | .array _, _ => .error .typeMismatch
  | .fixedArray t n, .list xs =>
    if xs.length ≠ n then .error .lengthMismatch
    else (encodeList t xs).map .fixedArray
  | .fixedArray _ _, _ => .error .typeMismatch
  | .tuple fs, .map m => (encodeFields fs m).map .tuple
  | .tuple _, _ => .error .typeMismatch
  | .optional _, .null => .ok (.optionalVal none)
  | .optional t, v => (encodeValue t v).map (fun sv => .optionalVal (some sv))
  | .map kt vt, .map m => do
    let entries ← encodeMapEntries kt vt m
    if allDifferent (entries.map fun e => svKeyString e.1) then
      .ok (.map (sortEntriesByKey entries))
    else .error .invalidEncoding
  | .map _ _, _ => .error .typeMismatch
termination_by t v => (sizeOf t, sizeOf v)
decreasing_by all_goals (simp_wf; try omega)

/-- Encode a host list element-wise against the element type. -/
def encodeList : StrictType → List HostValue → Except AbiError (List StrictValue)
  | _, [] => .ok []
  | t, x :: xs => do
    let v ← encodeValue t x
    let vs ← encodeList t xs
    .ok (v :: vs)
termination_by t xs => (sizeOf t, sizeOf xs)
decreasing_by all_goals (simp_wf; try omega)

/-- Encode a host mapping against a schema, iterating the schema in its fixed
order and looking parameters up by name; an absent parameter is
`ParameterMissing` unless its type is `Optional` (spec section 4.2). -/
def encodeFields : ParameterSchema → List (String × HostValue) →
    Except AbiError (List (String × StrictValue))
  | [], _ => .ok []
  | (n, t) :: fs, m => do
    let sv ← encodeFieldValue t (m.lookup n) n
    let rest ← encodeFields fs m
    .ok ((n, sv) :: rest)
termination_by fs m => (sizeOf fs, sizeOf m)
decreasing_by all_goals (simp_wf; try omega)

/-- Encode one looked-up parameter: present values encode against the type,
an absent parameter is an absent strict value for `Optional` types and
`ParameterMissing` otherwise (spec section 4.2). -/
def encodeFieldValue : StrictType → Option HostValue → String →
    Except AbiError StrictValue
  | t, some v, _ => encodeValue t v
  | .optional _, none, _ => .ok (.optionalVal none)
  | _, none, n => .error (.parameterMissing n)
termination_by t ov n => (sizeOf t, 1 + sizeOf ov)
decreasing_by all_goals (simp_wf; try omega)

/-- Encode the entries of a host mapping against a map type: every key string
is encoded against the key type, every value against the value type. -/
def encodeMapEntries : StrictType → StrictType → List (String × HostValue) →
    Except AbiError (List (StrictValue × StrictValue))
  | _, _, [] => .ok []
  | kt, vt, (k, v) :: rest => do
    let kv ← encodeValue kt (.str k)
    let vv ← encodeValue vt v
    let tail ← encodeMapEntries kt vt rest
    .ok ((kv, vv) :: tail)
termination_by kt vt m => (sizeOf kt + sizeOf vt, sizeOf m)
decreasing_by all_goals (simp_wf; try omega)

end

/-! ### Decoding strict values back into host values (total, spec section 4.2) -/

mutual

/-- Total decode of a well-formed strict value into a host value; integer
scalars always decode to canonical decimal strings (spec section 4.1). -/
def decodeValue : StrictValue → HostValue
  | .bool b => .bool b
  | .int _ _ v => .str (intToDecString v)
  | .str s => .str s
  | .array xs => .list (decodeList xs)
  | .fixedArray xs => .list (decodeList xs)
  | .tuple fields => .map (decodeEntries fields)
  | .optionalVal none => .null
  | .optionalVal (some v) => decodeValue v
  | .map entries => .map (decodeMapEntries entries)
termination_by sv => sizeOf sv
decreasing_by all_goals (simp_wf; try omega)

/-- Decode a strict value list element-wise. -/
def decodeList : List StrictValue → List HostValue
  | [] => []
  | v :: vs => decodeValue v :: decodeList vs
termination_by vs => sizeOf vs
decreasing_by all_goals (simp_wf; try omega)

/-- Decode a named strict value list into a host mapping in schema order. -/
def decodeEntries : List (String × StrictValue) → List (String × HostValue)
  | [] => []
  | (n, v) :: rest => (n, decodeValue v) :: decodeEntries rest
termination_by fs => sizeOf fs
decreasing_by all_goals (simp_wf; try omega)

/-- Decode strict map entries into a host mapping with canonical key strings. -/
def decodeMapEntries : List (StrictValue × StrictValue) → List (String × HostValue)
  | [] => []
  | (k, v) :: rest => (svKeyString k, decodeValue v) :: decodeMapEntries rest
termination_by es => sizeOf es
decreasing_by all_goals (simp_wf; try omega)

end

/-! ### Schema well-formedness

Spec section 3 invariant on `ParameterSchema`: names unique within one schema
(recursively, for nested tuples). -/

mutual

/-- Recursive well-formedness of a strict type: tuple field names unique, map
key types scalar key kinds. -/
def StrictType.wf : StrictType → Bool
  | .bool => true
  | .int _ _ => true
  | .string => true
  | .array t => t.wf
  | .fixedArray t _ => t.wf
  | .tuple fs => allDifferent (fs.map Prod.fst) && wfFields fs
  | .optional t => t.wf
  | .map kt vt => isMapKeyType kt && kt.wf && vt.wf
termination_by t => sizeOf t
decreasing_by all_goals (simp_wf; try omega)

/-- Well-formedness of every field type of a schema. -/
def wfFields : ParameterSchema → Bool
  | [] => true
  | (_, t) :: fs => t.wf && wfFields fs
termination_by fs => sizeOf fs
decreasing_by all_goals (simp_wf; try omega)

end

/-- Well-formedness of a top-level parameter schema: unique names, recursively
well-formed field types (spec section 3). -/
def schemaWF (s : ParameterSchema) : Bool :=
  allDifferent (s.map Prod.fst) && wfFields s

/-! ### Host-value equivalence up to the round-trip tolerances

The round-trip law of spec section 4.2 holds "up to the numeric-string
normalization in section 4.1 and up to map key reordering (maps are unordered;
lists and tuples are order-preserving)".  `hvEquiv` is that type-directed
equivalence: integer scalars compare after decimal parsing, host mappings
(tuples and the parameter mapping itself) compare by name lookup rather than
entry order with an absent optional parameter equivalent to null, associative
maps compare as unordered collections with keys compared after
normalization, and lists compare pointwise in order. -/

/-- Canonical form of a map key string under a key type; `none` when the key
type admits no string key form. -/
def canonKey : StrictType → String → Option String
  | .int _ _, k => (parseDecInt k).map intToDecString
  | .string, k => some k
  | _, _ => none

/-- Key equality after normalization under the key type. -/
def canonKeyEq (kt : StrictType) (a b : String) : Bool :=
  match canonKey kt a, canonKey kt b with
  | some x, some y => x == y
  | _, _ => false

mutual

/-- Type-directed equivalence of two host values up to numeric-string
normalization and map reordering. -/
def hvEquiv : StrictType → HostValue → HostValue → Bool
  | .bool, .bool a, .bool b => a == b
  | .int _ _, .str a, .str b =>
    (match parseDecInt a, parseDecInt b with
     | some x, some y => x == y
     | _, _ => false)
  | .string, .str a, .str b => a == b
  | .array t, .list as, .list bs => hvEquivList t as bs
  | .fixedArray t _, .list as, .list bs => hvEquivList t as bs
  | .tuple fs, .map a, .map b => hvEquivFields fs a b
  | .optional _, .null, .null => true
  | .optional t, a, b => hvEquiv t a b
  | .map kt vt, .map a, .map b =>
    a.length == b.length && mapSubEquiv kt vt a b && mapSubEquiv kt vt b a
  | _, _, _ => false
termination_by t a b => (4 * sizeOf t, 0)
decreasing_by all_goals (simp_wf; try omega)

/-- Pointwise, order-preserving equivalence of two host lists. -/
def hvEquivList : StrictType → List HostValue → List HostValue → Bool
  | _, [], [] => true
  | t, a :: as, b :: bs => hvEquiv t a b && hvEquivList t as bs
  | _, _, _ => false
termination_by t as bs => (4 * sizeOf t + 1, sizeOf as)
decreasing_by all_goals (simp_wf; try omega)

/-- Field-wise equivalence of two host mappings against a schema: each field
compared by name lookup, an absent entry standing for null. -/
def hvEquivFields : ParameterSchema → List (String × HostValue) →
    List (String × HostValue) → Bool
  | [], _, _ => true
  | (n, t) :: fs, a, b =>
    hvEquiv t ((a.lookup n).getD .null) ((b.lookup n).getD .null) &&
      hvEquivFields fs a b
termination_by fs a b => (4 * sizeOf fs, 0)
decreasing_by all_goals (simp_wf; try omega)

/-- Every entry of the first mapping has an entry of the second with the same
normalized key and an equivalent value. -/
def mapSubEquiv (kt vt : StrictType) : List (String × HostValue) →
    List (String × HostValue) → Bool
  | [], _ => true
  | (k, v) :: rest, b => hvFindMatch kt vt k v b && mapSubEquiv kt vt rest b
termination_by a b => (4 * (sizeOf kt + sizeOf vt) + 2, sizeOf a)
decreasing_by all_goals (simp_wf; try omega)

/-- Scan for an entry whose key matches after normalization and whose value is
equivalent. -/
def hvFindMatch (kt vt : StrictType) (k : String) (v : HostValue) :
    List (String × HostValue) → Bool
  | [] => false
  | (k', v') :: rest =>
    (canonKeyEq kt k k' && hvEquiv vt v v') || hvFindMatch kt vt k v rest
termination_by b => (4 * sizeOf vt + 1, sizeOf b)
decreasing_by all_goals (simp_wf; try omega)

end

/-! ### Byte-string parsing helpers

Modelled from the spec: the repository's `utils` module (not under `src/`)
holds the hex and base64 byte parsers, the public-key parser and the address
parser the entry points delegate to; they are modelled from the
specification's words in sections 4.1 and 6. -/

/-- A hexadecimal digit character, either case. -/
def isHexDigit (c : Char) : Bool :=
  isDigit c || (97 ≤ c.toNat && c.toNat ≤ 102) || (65 ≤ c.toNat && c.toNat ≤ 70)

/-- Value of one hexadecimal digit character. -/
def hexVal (c : Char) : Nat :=
  if c.toNat ≤ 57 then c.toNat - 48
  else if c.toNat ≤ 70 then c.toNat - 55
  else c.toNat - 87

/-- Decode an even-length hexadecimal character list into bytes. -/
def hexToBytes : List Char → Option (List Nat)
  | [] => some []
  | [_] => none
  | c1 :: c2 :: rest =>
    if isHexDigit c1 && isHexDigit c2 then
      (hexToBytes rest).map fun bs => (hexVal c1 * 16 + hexVal c2) :: bs
    else none

/-- Modelled from the spec (section 4.1): parse a byte string, failing with
`InvalidEncoding` when the string is not valid hexadecimal.  The base64
fallback accepted by the real helper for non-hex input is not modelled; no
stated property depends on it. -/
def parse_hex_or_base64_bytes (s : String) : Except AbiError (List Nat) :=
  match hexToBytes s.data with
  | some bs => .ok bs
  | none => .error .invalidEncoding

/-- Modelled from the spec: parse a hexadecimal ed25519 public key; the
external curve-point validity check of the signature collaborator is
abstracted to the 32-byte length requirement. -/
def parse_public_key (s : String) : Except AbiError (List Nat) :=
  match hexToBytes s.data with
  | some bs => if bs.length = 32 then .ok bs else .error .invalidEncoding
  | none => .error .invalidEncoding

/-- A validated ledger address: workchain and 32-byte account hash. -/
structure Address where
  workchain : Int
  hash : List Nat
deriving DecidableEq, Repr

/-- Split a character list at its first colon. -/
def splitOnColon : List Char → Option (List Char × List Char)
  | [] => none
  | c :: rest =>
    if c = ':' then some ([], rest)
    else (splitOnColon rest).map fun p => (c :: p.1, p.2)

/-- Modelled from the spec (section 4.1): addresses are validated against the
two-part `workchain:hex-hash` textual form; malformed text fails with
`InvalidAddress`. -/
def parse_address (s : String) : Except AbiError Address :=
  match splitOnColon s.data with
  | none => .error .invalidAddress
  | some (wc, h) =>
    match parseDecIntChars wc with
    | none => .error .invalidAddress
    | some w =>
      if h.length = 64 then
        match hexToBytes h with
        | some bs => .ok ⟨w, bs⟩
        | none => .error .invalidAddress
      else .error .invalidAddress

/-! ### Signature-domain extension and the signature collaborator -/

/-- Big-endian two's-complement byte quadruple of a 32-bit value. -/
def i32BeBytes (id : Int) : List Nat :=
  let n := (id % 4294967296).toNat
  [n / 16777216 % 256, n / 65536 % 256, n / 256 % 256, n % 256]

/-- Modelled from the spec (section 4.4 step 2 and the glossary): the
configured signature-domain id is mixed into the signed bytes by appending its
4-byte representation to the raw data before signing or verifying; with no id
configured the data is unchanged (nekoton's extend-with-signature-id
collaborator). -/
def extendWithSignatureId (data : List Nat) : Option Int → List Nat
  | some id => data ++ i32BeBytes id
  | none => data

/-- Modelled from the spec (section 6): a detached signature of the external
deterministic signature scheme, abstracted by the secret key and the exact
message bytes it was produced over. -/
structure Ed25519Signature where
  signer : List Nat
  message : List Nat
deriving DecidableEq, Repr

/-- Modelled from the spec: derivation of public key bytes from secret key
bytes, abstracted as an injective map (represented by the identity). -/
def ed25519PublicKeyOf (sk : List Nat) : List Nat := sk

/-- Modelled from the spec (section 6): deterministic detached signing as a
pure function of the secret key and the exact bytes. -/
def ed25519SignRaw (sk msg : List Nat) : Ed25519Signature := ⟨sk, msg⟩

/-- Modelled from the spec (section 6): verification succeeds exactly for the
public key matching the signing key and the exact signed bytes. -/
def ed25519Verify (pk msg : List Nat) (sig : Ed25519Signature) : Bool :=
  ed25519PublicKeyOf sig.signer == pk && sig.message == msg

/-- Modelled from the external signature collaborator's contract: secret keys
are exactly 32 bytes, any other length is rejected. -/
def secretKeyFromBytes (bs : List Nat) : Except AbiError (List Nat) :=
  if bs.length = 32 then .ok bs else .error .invalidEncoding

/-- Embeds `ed25519_sign` / `sign_data` (src/lib.rs lines 669-687) over the
modelled collaborators.  The boolean component reports whether the parsed
secret-key buffer has been overwritten with zeros by the time the function
exits: the source calls `secret_key.zeroize()` only after
`SecretKey::from_bytes(&secret_key)` has succeeded via the early-return
operator, so the exit taken when the secret key bytes fail to parse leaves
the buffer intact (`false`); exits taken before the buffer exists report
`true` vacuously. -/
def sign_data (secretKey data : String) (signatureId : Option Int) :
    Except AbiError Ed25519Signature × Bool :=
  match parse_hex_or_base64_bytes data with
  | .error e => (.error e, true)
  | .ok dataBytes =>
    match parse_hex_or_base64_bytes secretKey with
    | .error e => (.error e, true)
    | .ok skBuf =>
      match secretKeyFromBytes skBuf with
      | .error e => (.error e, false)
      | .ok secret =>
        let extended := extendWithSignatureId dataBytes signatureId
        (.ok (ed25519SignRaw secret extended), true)

/-- Embeds `verifySignature` / `verify_signature` (src/lib.rs lines 695-710):
parse the public key and the data, extend the data with the optional
signature-domain id, and return the boolean verdict of the external verifier;
a well-formed signature that does not validate yields `ok false`, never an
error.  The 64-byte detached signature argument arrives pre-parsed as the
abstract signature value of the modelled collaborator. -/
def verify_signature (publicKey data : String) (sig : Ed25519Signature)
    (signatureId : Option Int) : Except AbiError Bool :=
  match parse_public_key publicKey with
  | .error e => .error e
  | .ok pk =>
    match parse_hex_or_base64_bytes data with
    | .error e => .error e
    | .ok dataBytes =>
      .ok (ed25519Verify pk (extendWithSignatureId dataBytes signatureId) sig)

/-! ### Deterministic serialization of strict values

Modelled from the spec (section 6): canonical byte production by the external
ledger-serialization collaborator is a pure function of the strict value tree,
abstracted here as a tagged flattening. -/

/-- Byte form of a string. -/
def strBytes (s : String) : List Nat := s.data.map Char.toNat

/-- Byte form of an integer (its canonical decimal string). -/
def intBytes (v : Int) : List Nat := strBytes (intToDecString v)

/-- Byte form of a natural number. -/
def natBytes (n : Nat) : List Nat := intBytes (n : Int)

mutual

/-- Deterministic flattening of one strict value into bytes. -/
def svBytes : StrictValue → List Nat
  | .bool b => [0, if b then 1 else 0]
  | .int w s v => [1, w, if s then 1 else 0] ++ intBytes v
  | .str s => 2 :: strBytes s
  | .array xs => 3 :: svListBytes xs
  | .fixedArray xs => 4 :: svListBytes xs
  | .tuple fs => 5 :: svFieldsBytes fs
  | .optionalVal none => [6]
  | .optionalVal (some v) => 7 :: svBytes v
  | .map es => 8 :: svMapBytes es
termination_by sv => sizeOf sv
decreasing_by all_goals (simp_wf; try omega)

/-- Deterministic flattening of a strict value list. -/
def svListBytes : List StrictValue → List Nat
  | [] => [9]
  | v :: vs => svBytes v ++ svListBytes vs
termination_by vs => sizeOf vs
decreasing_by all_goals (simp_wf; try omega)

/-- Deterministic flattening of a named strict value list. -/
def svFieldsBytes : List (String × StrictValue) → List Nat
  | [] => [9]
  | (n, v) :: fs => strBytes n ++ svBytes v ++ svFieldsBytes fs
termination_by fs => sizeOf fs
decreasing_by all_goals (simp_wf; try omega)

/-- Deterministic flattening of strict map entries. -/
def svMapBytes : List (StrictValue × StrictValue) → List Nat
  | [] => [9]
  | (k, v) :: es => svBytes k ++ svBytes v ++ svMapBytes es
termination_by es => sizeOf es
decreasing_by all_goals (simp_wf; try omega)

end

/-! ### The unsigned message pipeline

Modelled from the spec (section 4.4): the draft lifecycle lives in the
repository's `models` module and the nekoton core crate, neither under
`src/`; the state machine below follows the specification's words. -/

/-- Lifecycle states of a draft (spec section 4.4). -/
inductive DraftState where
  | draft
  | hashReady
  | signed
deriving DecidableEq, Repr

/-- Modelled from the spec (section 3): the unsigned message draft owns the
destination, the optional deploy payload, the resolved body bytes minus the
signature, the target public key and the absolute expiration instant. -/
structure UnsignedMessageDraft where
  dst : Address
  stateInit : Option (List Nat)
  bodyBytes : List Nat
  pubKey : List Nat
  expireAt : Nat
  state : DraftState
deriving DecidableEq, Repr

/-- Wire-ready bytes plus the expiration instant they were signed against
(spec section 3, `SignedMessageResult`). -/
structure SignedMessageResult where
  wireBytes : List Nat
  expireAt : Nat
deriving DecidableEq, Repr

/-- Modelled from the spec (section 6): the 32-byte digest of the external
ledger-serialization collaborator, abstracted as an injective map
(represented by the identity on byte sequences). -/
def ledgerHash (bs : List Nat) : List Nat := bs

/-- Signing hash of a draft (spec section 4.4 step 2): the deterministic body
bytes with the placeholder signature slot, extended with the configured
signature-domain id, then hashed. -/
def signingHash (d : UnsignedMessageDraft) (signatureId : Option Int) : List Nat :=
  ledgerHash (extendWithSignatureId d.bodyBytes signatureId)

/-- Modelled from the spec (section 4.4 transition 2 and rule 5): request the
exact hash a detached signature must cover.  The expiration guard is
evaluated against the ambient clock at call time, before anything else and
regardless of the draft's state. -/
def UnsignedMessageDraft.requestHash (d : UnsignedMessageDraft)
    (signatureId : Option Int) (nowSec : Nat) :
    Except AbiError (List Nat × UnsignedMessageDraft) :=
  if d.expireAt < nowSec then .error .messageExpired
  else .ok (signingHash d signatureId, { d with state := .hashReady })

/-- Modelled from the spec (section 4.4 transition 3 and rule 5): inject a
64-byte detached signature; the expiration guard runs first at call time. -/
def UnsignedMessageDraft.injectSignature (d : UnsignedMessageDraft)
    (sig : List Nat) (nowSec : Nat) : Except AbiError UnsignedMessageDraft :=
  if d.expireAt < nowSec then .error .messageExpired
  else if sig.length ≠ 64 then .error .signatureLengthMismatch
  else .ok { d with state := .signed }

/-- Modelled from the spec (section 4.4 transition 4, rule 5 and section 6):
finalize the wire bytes with the real signature and, optionally, a
replacement public key; the expiration guard runs first at call time,
regardless of the signature supplied. -/
def finalizeSignedMessage (d : UnsignedMessageDraft) (sig : List Nat)
    (replacementKey : Option (List Nat)) (nowSec : Nat) :
    Except AbiError SignedMessageResult :=
  if d.expireAt < nowSec then .error .messageExpired
  else if sig.length ≠ 64 then .error .signatureLengthMismatch
  else .ok ⟨sig ++ d.bodyBytes ++ replacementKey.getD d.pubKey, d.expireAt⟩

/-- Modelled from the repository's `utils` module (not under `src/`): a clock
with an adjustable millisecond offset over an ambient time source; the
resolved value is the offset-adjusted now in milliseconds. -/
structure ClockWithOffset where
  realtimeMs : Nat
  offsetMs : Int
deriving DecidableEq, Repr

/-- The resolved clock value in milliseconds. -/
def ClockWithOffset.nowMs (c : ClockWithOffset) : Nat :=
  ((c.realtimeMs : Int) + c.offsetMs).toNat

/-- Embeds `createExternalMessage` / `create_external_message` (src/lib.rs
lines 794-831) over the modelled collaborators: parse the destination, the
input values against the schema, the public key and the optional deploy
payload; resolve the relative timeout to an absolute expiration instant using
the clock resolved once at construction time; and build the draft with a
deterministic body serialization carrying a placeholder signature slot. -/
def create_external_message (clock : ClockWithOffset) (dst : String)
    (schema : ParameterSchema) (stateInit : Option String)
    (input : List (String × HostValue)) (publicKey : String) (timeout : Nat) :
    Except AbiError UnsignedMessageDraft :=
  match parse_address dst with
  | .error e => .error e
  | .ok dstA =>
    match encodeFields schema input with
    | .error e => .error e
    | .ok tokens =>
      match parse_public_key publicKey with
      | .error e => .error e
      | .ok pk =>
        match (match stateInit with
               | some s => (parse_hex_or_base64_bytes s).map some
               | none => .ok none) with
        | .error e => .error e
        | .ok si =>
          let expireAt := clock.nowMs / 1000 + timeout
          .ok { dst := dstA
                stateInit := si
                bodyBytes := intBytes dstA.workchain ++ dstA.hash ++ natBytes expireAt
                  ++ pk ++ si.getD [] ++ svFieldsBytes tokens
                pubKey := pk
                expireAt := expireAt
                state := .draft }

/-- The already-signed raw external message produced without any clock
(src/lib.rs lines 712-738): destination, optional state init, optional body,
and the caller-supplied expiration instant carried verbatim. -/
structure RawSignedMessage where
  dst : Address
  stateInit : Option (List Nat)
  body : Option (List Nat)
  expireAt : Nat
deriving DecidableEq, Repr

/-- Embeds `createRawExternalMessage` / `create_raw_external_message`
(src/lib.rs lines 712-738) over the modelled parsers: parse the destination,
attach the optional state init and body, and wrap the caller-supplied
`expire_at` unchanged.  The function takes no clock and performs no
expiration check. -/
def create_raw_external_message (dst : String) (stateInit body : Option String)
    (expireAt : Nat) : Except AbiError RawSignedMessage :=
  match parse_address dst with
  | .error e => .error e
  | .ok dstA =>
    match (match stateInit with
           | some s => (parse_hex_or_base64_bytes s).map some
           | none => .ok none) with
    | .error e => .error e
    | .ok si =>
      match (match body with
             | some s => (parse_hex_or_base64_bytes s).map some
             | none => .ok none) with
      | .error e => .error e
      | .ok b => .ok ⟨dstA, si, b, expireAt⟩

/-- Modelled from the spec (section 4.3): resolve a schema against
already-known (deploy-pinned) values and caller-supplied values.  A parameter
present in both mappings is a `ParameterConflict`; a parameter present only in
the known mapping is taken verbatim from it — known fields are never silently
overridden. -/
def merge_known_values (schema : ParameterSchema)
    (known caller : List (String × HostValue)) :
    Except AbiError (List (String × HostValue)) :=
  match schema.find? (fun p => (known.lookup p.1).isSome && (caller.lookup p.1).isSome) with
  | some p => .error (.parameterConflict p.1)
  | none =>
    .ok (schema.filterMap fun p =>
      match known.lookup p.1 with
      | some v => some (p.1, v)
      | none => (caller.lookup p.1).map fun v => (p.1, v))

/-! ## Theorems -/

/-! ### Helper lemmas on byte parsing and the signature-domain extension -/

theorem hexToBytes_of_parse {s : String} {bs : List Nat}
    (h : parse_hex_or_base64_bytes s = .ok bs) : hexToBytes s.data = some bs := by
  unfold parse_hex_or_base64_bytes at h
  cases hh : hexToBytes s.data with
  | none => rw [hh] at h; exact absurd h (by simp)
  | some bs' => rw [hh] at h; simp at h; rw [h]

theorem verify_signature_eval {publicKey data : String} {pk db : List Nat}
    (hp : parse_public_key publicKey = .ok pk)
    (hdb : parse_hex_or_base64_bytes data = .ok db)
    (sig : Ed25519Signature) (signatureId : Option Int) :
    verify_signature publicKey data sig signatureId =
      .ok (ed25519Verify pk (extendWithSignatureId db signatureId) sig) := by
  unfold verify_signature
  rw [hp, hdb]

theorem i32BeBytes_inj {a b : Int}
    (ha : -(2 ^ 31) ≤ a ∧ a < 2 ^ 31) (hb : -(2 ^ 31) ≤ b ∧ b < 2 ^ 31)
    (h : i32BeBytes a = i32BeBytes b) : a = b := by
  unfold i32BeBytes at h
  simp only [List.cons.injEq, and_true] at h
  obtain ⟨h1, h2, h3, h4⟩ := h
  omega

theorem extendWithSignatureId_some_ne (data : List Nat) {a b : Int}
    (hne : a ≠ b)
    (ha : -(2 ^ 31) ≤ a ∧ a < 2 ^ 31) (hb : -(2 ^ 31) ≤ b ∧ b < 2 ^ 31) :
    extendWithSignatureId data (some a) ≠ extendWithSignatureId data (some b) := by
  intro h
  simp only [extendWithSignatureId] at h
  have h' : i32BeBytes a = i32BeBytes b := by
    have := congrArg (List.drop data.length) h
    simpa using this
  exact hne (i32BeBytes_inj ha hb h')

/-! ### C10: the raw external message path has no expiration guard -/

/-- C10: `createRawExternalMessage` performs no expiration check — for every
`expire_at` value, including instants already in the past, it succeeds
whenever its destination, state-init and body inputs parse, and the returned
result carries the caller-supplied `expire_at` verbatim. -/
theorem create_raw_external_message_no_expiration_check
    (dst : String) (stateInit body : Option String) (expireAt : Nat)
    (hdst : (parse_address dst).isOk = true)
    (hsi : ∀ s ∈ stateInit, (parse_hex_or_base64_bytes s).isOk = true)
    (hb : ∀ s ∈ body, (parse_hex_or_base64_bytes s).isOk = true) :
    ∃ m, create_raw_external_message dst stateInit body expireAt = .ok m ∧
      m.expireAt = expireAt := by
  unfold create_raw_external_message
  cases hd : parse_address dst with
  | error e => rw [hd] at hdst; exact absurd hdst (by simp [Except.isOk, Except.toBool])
  | ok dstA =>
    have hsi' : ∃ si, (match stateInit with
        | some s => (parse_hex_or_base64_bytes s).map some
        | none => .ok none) = Except.ok si := by
      cases stateInit with
      | none => exact ⟨none, rfl⟩
      | some s =>
        have := hsi s rfl
        cases hp : parse_hex_or_base64_bytes s with
        | error e => rw [hp] at this; exact absurd this (by simp [Except.isOk, Except.toBool])
        | ok bs =>
          refine ⟨some bs, ?_⟩
          show Except.map some (parse_hex_or_base64_bytes s) = Except.ok (some bs)
          rw [hp]
          rfl
    have hb' : ∃ bb, (match body with
        | some s => (parse_hex_or_base64_bytes s).map some
        | none => .ok none) = Except.ok bb := by
      cases body with
      | none => exact ⟨none, rfl⟩
      | some s =>
        have := hb s rfl
        cases hp : parse_hex_or_base64_bytes s with
        | error e => rw [hp] at this; exact absurd this (by simp [Except.isOk, Except.toBool])
        | ok bs =>
          refine ⟨some bs, ?_⟩
          show Except.map some (parse_hex_or_base64_bytes s) = Except.ok (some bs)
          rw [hp]
          rfl
    obtain ⟨si, hsiEq⟩ := hsi'
    obtain ⟨bb, hbEq⟩ := hb'
    refine ⟨⟨dstA, si, bb, expireAt⟩, ?_, rfl⟩
    rw [hsiEq, hbEq]

/-- Witness for C10: a zero workchain address with 64 zero hash characters, no
state init, no body, and the long-past expiration instant 0 succeed with the
instant carried verbatim. -/
theorem create_raw_external_message_no_expiration_check_witness :
    ∃ m, create_raw_external_message
        "0:0000000000000000000000000000000000000000000000000000000000000000"
        none none 0 = .ok m ∧ m.expireAt = 0 :=
  create_raw_external_message_no_expiration_check _ none none 0 (by decide)
    (by intro s h; cases h) (by intro s h; cases h)

/-! ### C9: verification never turns a failed check into an error -/

/-- C9: `verifySignature` never returns an error because of a signature that
merely fails to verify — once the public key and data inputs parse (the
detached signature arriving as a well-formed signature value), it returns a
boolean, with `ok false` (not an error) for a well-formed signature that does
not validate over the given data and domain id. -/
theorem verify_signature_total_on_parsed
    (publicKey data : String) (sig : Ed25519Signature) (signatureId : Option Int)
    (hpk : (parse_public_key publicKey).isOk = true)
    (hd : (parse_hex_or_base64_bytes data).isOk = true) :
    (∃ b, verify_signature publicKey data sig signatureId = .ok b) ∧
    (∀ pk db, parse_public_key publicKey = .ok pk →
      parse_hex_or_base64_bytes data = .ok db →
      ed25519Verify pk (extendWithSignatureId db signatureId) sig = false →
      verify_signature publicKey data sig signatureId = .ok false) := by
  cases hp : parse_public_key publicKey with
  | error e => rw [hp] at hpk; exact absurd hpk (by simp [Except.isOk, Except.toBool])
  | ok pk =>
    cases hdb : parse_hex_or_base64_bytes data with
    | error e => rw [hdb] at hd; exact absurd hd (by simp [Except.isOk, Except.toBool])
    | ok db =>
      constructor
      · exact ⟨ed25519Verify pk (extendWithSignatureId db signatureId) sig,
          verify_signature_eval hp hdb sig signatureId⟩
      · intro pk' db' hpk' hdb' hv
        have e1 : pk = pk' := Except.ok.inj hpk'
        have e2 : db = db' := Except.ok.inj hdb'
        subst e1; subst e2
        rw [verify_signature_eval hp hdb sig signatureId, hv]

/-- Witness for C9: a well-formed 32-byte public key and empty data parse, and
a signature made by a different key over different bytes verifies to
`ok false` rather than an error. -/
theorem verify_signature_total_on_parsed_witness :
    (∃ b, verify_signature
        "0000000000000000000000000000000000000000000000000000000000000000" ""
        ⟨[1], [2]⟩ none = .ok b) ∧
    verify_signature
        "0000000000000000000000000000000000000000000000000000000000000000" ""
        ⟨[1], [2]⟩ none = .ok false := by
  have h := verify_signature_total_on_parsed
    "0000000000000000000000000000000000000000000000000000000000000000" ""
    ⟨[1], [2]⟩ none (by decide) (by decide)
  exact ⟨h.1, h.2 (List.replicate 32 0) [] rfl rfl rfl⟩

/-! ### C4: known-value precedence in the schema resolver -/

/-- C4: when merging already-known (deploy-pinned) values with caller-supplied
values, every parameter name present in both mappings makes the merge fail
with `ParameterConflict`, and every parameter present only in the known
mapping is taken verbatim from it — a known value is never silently
overridden by caller input. -/
theorem merge_known_values_precedence (schema : ParameterSchema)
    (known caller : List (String × HostValue)) :
    ((∃ p ∈ schema, (known.lookup p.1).isSome = true ∧ (caller.lookup p.1).isSome = true) →
      ∃ n, merge_known_values schema known caller = .error (.parameterConflict n)) ∧
    (∀ n t v, (n, t) ∈ schema → known.lookup n = some v → caller.lookup n = none →
      ∀ r, merge_known_values schema known caller = .ok r → (n, v) ∈ r) := by
  constructor
  · rintro ⟨p, hmem, h1, h2⟩
    unfold merge_known_values
    cases hf : schema.find?
        (fun p => (known.lookup p.1).isSome && (caller.lookup p.1).isSome) with
    | none =>
      have hnone := List.find?_eq_none.mp hf p hmem
      rw [h1, h2] at hnone
      simp at hnone
    | some q => exact ⟨q.1, rfl⟩
  · intro n t v hmem hk hc r hr
    unfold merge_known_values at hr
    cases hf : schema.find?
        (fun p => (known.lookup p.1).isSome && (caller.lookup p.1).isSome) with
    | some q => rw [hf] at hr; exact absurd hr (by simp)
    | none =>
      rw [hf] at hr
      have hrEq := Except.ok.inj hr
      rw [← hrEq]
      refine List.mem_filterMap.mpr ⟨(n, t), hmem, ?_⟩
      simp only [hk]

/-- Witness for C4: the spec's own example — `known = {"a": 1}` with caller
input `{"a": 2}` conflicts, and with caller input `{}` the known value is
taken verbatim. -/
theorem merge_known_values_precedence_witness :
    (∃ n, merge_known_values [("a", StrictType.int 8 false)]
        [("a", HostValue.str "1")] [("a", HostValue.str "2")] =
        .error (.parameterConflict n)) ∧
    ("a", HostValue.str "1") ∈ [("a", HostValue.str "1")] :=
  ⟨(merge_known_values_precedence [("a", StrictType.int 8 false)]
      [("a", HostValue.str "1")] [("a", HostValue.str "2")]).1
      ⟨("a", StrictType.int 8 false), by simp, rfl, rfl⟩,
   (merge_known_values_precedence [("a", StrictType.int 8 false)]
      [("a", HostValue.str "1")] []).2 "a" (StrictType.int 8 false)
      (HostValue.str "1") (by simp) rfl rfl [("a", HostValue.str "1")] rfl⟩

/-! ### C3: the cross-cutting expiration guard -/

/-- C3: for every draft whose absolute expiration instant is already in the
past according to the ambient clock at the time of the call, requesting the
signing hash, injecting a signature, and finalizing the message all fail with
`MessageExpired`, regardless of the draft's lifecycle state (the state field
of `d` is arbitrary) and regardless of the supplied signature being valid. -/
theorem expired_draft_all_ops_fail (d : UnsignedMessageDraft) (nowSec : Nat)
    (sig : List Nat) (replacementKey : Option (List Nat)) (signatureId : Option Int)
    (h : d.expireAt < nowSec) :
    d.requestHash signatureId nowSec = .error .messageExpired ∧
    d.injectSignature sig nowSec = .error .messageExpired ∧
    finalizeSignedMessage d sig replacementKey nowSec = .error .messageExpired := by
  unfold UnsignedMessageDraft.requestHash UnsignedMessageDraft.injectSignature
    finalizeSignedMessage
  simp [h]

/-- Witness for C3: a draft expiring at instant 0 observed at instant 1, given
a well-formed 64-byte signature, fails all three operations in every state
(shown in the `draft` state). -/
theorem expired_draft_all_ops_fail_witness :
    (UnsignedMessageDraft.mk ⟨0, []⟩ none [] [] 0 .draft).requestHash none 1 =
      .error .messageExpired ∧
    (UnsignedMessageDraft.mk ⟨0, []⟩ none [] [] 0 .draft).injectSignature
      (List.replicate 64 0) 1 = .error .messageExpired ∧
    finalizeSignedMessage (UnsignedMessageDraft.mk ⟨0, []⟩ none [] [] 0 .draft)
      (List.replicate 64 0) none 1 = .error .messageExpired :=
  expired_draft_all_ops_fail _ 1 (List.replicate 64 0) none none (by decide)

/-! ### C8: determinism of message construction -/

/-- C8: two calls to `createExternalMessage` with identical destination,
deploy payload, schema, input values, public key and expiration policy, and
the same resolved clock value, produce identical drafts and hence identical
signing hashes — even when the two clocks differ internally (base time versus
offset) as long as their resolved now coincides. -/
theorem create_external_message_deterministic
    (c1 c2 : ClockWithOffset) (dst : String) (schema : ParameterSchema)
    (stateInit : Option String) (input : List (String × HostValue))
    (publicKey : String) (timeout : Nat) (signatureId : Option Int)
    (hclock : c1.nowMs = c2.nowMs) :
    create_external_message c1 dst schema stateInit input publicKey timeout =
      create_external_message c2 dst schema stateInit input publicKey timeout ∧
    (∀ d1 d2,
      create_external_message c1 dst schema stateInit input publicKey timeout = .ok d1 →
      create_external_message c2 dst schema stateInit input publicKey timeout = .ok d2 →
      signingHash d1 signatureId = signingHash d2 signatureId) := by
  have heq : create_external_message c1 dst schema stateInit input publicKey timeout =
      create_external_message c2 dst schema stateInit input publicKey timeout := by
    unfold create_external_message
    rw [hclock]
  refine ⟨heq, ?_⟩
  intro d1 d2 h1 h2
  rw [heq] at h1
  rw [h1] at h2
  have := Except.ok.inj h2
  rw [this]

/-- Witness for C8: two internally different clocks (base 1000 with offset 5,
base 1005 with offset 0) resolving to the same instant produce identical
results on a concrete construction. -/
theorem create_external_message_deterministic_witness :
    create_external_message ⟨1000, 5⟩
        "0:0000000000000000000000000000000000000000000000000000000000000000"
        [] none [] "0000000000000000000000000000000000000000000000000000000000000000" 0 =
      create_external_message ⟨1005, 0⟩
        "0:0000000000000000000000000000000000000000000000000000000000000000"
        [] none [] "0000000000000000000000000000000000000000000000000000000000000000" 0 ∧
    (∀ d1 d2,
      create_external_message ⟨1000, 5⟩
        "0:0000000000000000000000000000000000000000000000000000000000000000"
        [] none [] "0000000000000000000000000000000000000000000000000000000000000000" 0 = .ok d1 →
      create_external_message ⟨1005, 0⟩
        "0:0000000000000000000000000000000000000000000000000000000000000000"
        [] none [] "0000000000000000000000000000000000000000000000000000000000000000" 0 = .ok d2 →
      signingHash d1 none = signingHash d2 none) :=
  create_external_message_deterministic ⟨1000, 5⟩ ⟨1005, 0⟩ _ [] none [] _ 0 none (by decide)

/-! ### C5 and C6: scalar and fixed-array encode behavior -/

theorem encodeValue_int_eval (w : Nat) (signed : Bool) (a : String) :
    encodeValue (.int w signed) (.str a) =
      match parseDecInt a with
      | none => .error .typeMismatch
      | some v =>
        if intFits w signed v then .ok (.int w signed v) else .error .outOfRange := by
  simp only [encodeValue]

theorem intFits_boundary (w : Nat) (signed : Bool) :
    intFits w signed (intMax w signed) = true ∧
    intFits w signed (intMax w signed + 1) = false ∧
    intFits w signed (intMin w signed) = true ∧
    intFits w signed (intMin w signed - 1) = false := by
  have hp : 0 < (2 : Int) ^ (w - 1) := pow_pos (by norm_num) _
  have hq : 0 < (2 : Int) ^ w := pow_pos (by norm_num) _
  unfold intFits intMax intMin
  cases signed <;> simp <;> omega

/-- C5: for every declared integer type of width `w` and signedness `s`,
encoding a decimal-string literal denoting either exact bound succeeds, and a
literal one unit beyond either bound fails with `OutOfRange`; in particular
for an 8-bit unsigned field, `"255"` succeeds while `"256"` and `"-1"` both
fail with `OutOfRange`. -/
theorem encode_int_boundary (w : Nat) (signed : Bool) (sHi sOver sLo sUnder : String)
    (hHi : parseDecInt sHi = some (intMax w signed))
    (hOver : parseDecInt sOver = some (intMax w signed + 1))
    (hLo : parseDecInt sLo = some (intMin w signed))
    (hUnder : parseDecInt sUnder = some (intMin w signed - 1)) :
    (encodeValue (.int w signed) (.str sHi)).isOk = true ∧
    encodeValue (.int w signed) (.str sOver) = .error .outOfRange ∧
    (encodeValue (.int w signed) (.str sLo)).isOk = true ∧
    encodeValue (.int w signed) (.str sUnder) = .error .outOfRange ∧
    (encodeValue (.int 8 false) (.str "255")).isOk = true ∧
    encodeValue (.int 8 false) (.str "256") = .error .outOfRange ∧
    encodeValue (.int 8 false) (.str "-1") = .error .outOfRange := by
  obtain ⟨b1, b2, b3, b4⟩ := intFits_boundary w signed
  refine ⟨?_, ?_, ?_, ?_, ?_, ?_, ?_⟩
  · rw [encodeValue_int_eval, hHi]; simp [b1]; rfl
  · rw [encodeValue_int_eval, hOver]; simp [b2]
  · rw [encodeValue_int_eval, hLo]; simp [b3]; rfl
  · rw [encodeValue_int_eval, hUnder]; simp [b4]
  · rw [encodeValue_int_eval]; rfl
  · rw [encodeValue_int_eval]; rfl
  · rw [encodeValue_int_eval]; rfl

/-- Witness for C5: the 8-bit unsigned instance, whose bounds are denoted by
the literals `"255"`, `"256"`, `"0"` and `"-1"`. -/
theorem encode_int_boundary_witness :
    (encodeValue (.int 8 false) (.str "255")).isOk = true ∧
    encodeValue (.int 8 false) (.str "256") = .error .outOfRange ∧
    (encodeValue (.int 8 false) (.str "0")).isOk = true ∧
    encodeValue (.int 8 false) (.str "-1") = .error .outOfRange ∧
    (encodeValue (.int 8 false) (.str "255")).isOk = true ∧
    encodeValue (.int 8 false) (.str "256") = .error .outOfRange ∧
    encodeValue (.int 8 false) (.str "-1") = .error .outOfRange :=
  encode_int_boundary 8 false "255" "256" "0" "-1" rfl rfl rfl rfl

theorem encodeValue_fixedArray_eval (t : StrictType) (n : Nat) (xs : List HostValue) :
    encodeValue (.fixedArray t n) (.list xs) =
      if xs.length ≠ n then .error .lengthMismatch
      else (encodeList t xs).map .fixedArray := by
  simp only [encodeValue]

theorem encodeList_isOk (t : StrictType) (xs : List HostValue)
    (h : ∀ x ∈ xs, (encodeValue t x).isOk = true) :
    (encodeList t xs).isOk = true := by
  induction xs with
  | nil => simp [encodeList]; rfl
  | cons x xs ih =>
    have hx := h x (by simp)
    cases he : encodeValue t x with
    | error e => rw [he] at hx; exact absurd hx (by simp [Except.isOk, Except.toBool])
    | ok v =>
      have hrest := ih fun y hy => h y (by simp [hy])
      cases hl : encodeList t xs with
      | error e => rw [hl] at hrest; exact absurd hrest (by simp [Except.isOk, Except.toBool])
      | ok vs => simp [encodeList, he, hl]; rfl

/-- C6: encoding a host list against a `FixedArray` of declared length `n`
fails with `LengthMismatch` whenever the list length differs from `n`, and
succeeds for a list of exactly `n` elements each of which validates against
the element type. -/
theorem encode_fixedArray_length (t : StrictType) (n : Nat) (xs : List HostValue) :
    (xs.length ≠ n → encodeValue (.fixedArray t n) (.list xs) = .error .lengthMismatch) ∧
    (xs.length = n → (∀ x ∈ xs, (encodeValue t x).isOk = true) →
      (encodeValue (.fixedArray t n) (.list xs)).isOk = true) := by
  constructor
  · intro hne
    rw [encodeValue_fixedArray_eval, if_pos hne]
  · intro hlen hall
    rw [encodeValue_fixedArray_eval, if_neg (by simp [hlen])]
    have := encodeList_isOk t xs hall
    cases hl : encodeList t xs with
    | error e => rw [hl] at this; exact absurd this (by simp [Except.isOk, Except.toBool])
    | ok vs => rfl

/-- Witness for C6: a `FixedArray` of booleans with declared length 3 rejects
a 2-element list with `LengthMismatch` and accepts a 3-element list. -/
theorem encode_fixedArray_length_witness :
    encodeValue (.fixedArray .bool 3) (.list [.bool true, .bool false]) =
      .error .lengthMismatch ∧
    (encodeValue (.fixedArray .bool 3)
      (.list [.bool true, .bool false, .bool true])).isOk = true :=
  ⟨(encode_fixedArray_length .bool 3 [.bool true, .bool false]).1 (by decide),
   (encode_fixedArray_length .bool 3 [.bool true, .bool false, .bool true]).2 rfl
    (by
      intro x hx
      simp only [List.mem_cons, List.not_mem_nil, or_false] at hx
      rcases hx with h | h | h <;> (subst h; simp [encodeValue]; rfl))⟩

/-! ### C7: the signing helper misses zeroization on one early-return path -/

/-- C7: evaluation of the signing helper at a failing input.  With secret key
string `"00"` (one parsed byte) and empty data, the secret-key buffer parses,
the 32-byte key constructor then fails, and the function exits with an error
without having overwritten the parsed buffer — the `zeroize` call sits after
the fallible key parse's early-return operator, so this exit path skips it,
contradicting the claim that every exit path scrubs the buffer.  With a
64-hex-character secret key the success path does scrub it. -/
theorem sign_data_error_path_skips_zeroize :
    (sign_data "00" "" none).2 = false ∧
    (sign_data "00" "" none).1 = .error .invalidEncoding ∧
    (sign_data "0000000000000000000000000000000000000000000000000000000000000000"
        "" none).2 = true := by
  refine ⟨rfl, rfl, rfl⟩

/-! ### C2: signature-domain separation -/

/-- C2: for one fixed secret key and one fixed data input, signing with two
different configured signature-domain ids produces two different signatures,
and verifying a signature produced under one domain id against the same data
with the other domain id returns false.  (In the modelled scheme the public
key bytes coincide with the secret key bytes, so the same hex string names
the verifying key.) -/
theorem sign_data_domain_separation
    (sk data : String) (skBytes dataBytes : List Nat) (id1 id2 : Int)
    (hsk : parse_hex_or_base64_bytes sk = .ok skBytes) (hlen : skBytes.length = 32)
    (hd : parse_hex_or_base64_bytes data = .ok dataBytes)
    (hne : id1 ≠ id2)
    (hr1 : -(2 ^ 31) ≤ id1 ∧ id1 < 2 ^ 31) (hr2 : -(2 ^ 31) ≤ id2 ∧ id2 < 2 ^ 31) :
    ∃ sig1 sig2,
      (sign_data sk data (some id1)).1 = .ok sig1 ∧
      (sign_data sk data (some id2)).1 = .ok sig2 ∧
      sig1 ≠ sig2 ∧
      verify_signature sk data sig1 (some id2) = .ok false ∧
      verify_signature sk data sig2 (some id1) = .ok false := by
  have hmsgne := extendWithSignatureId_some_ne dataBytes hne hr1 hr2
  have hsign : ∀ id : Int, sign_data sk data (some id) =
      (.ok ⟨skBytes, extendWithSignatureId dataBytes (some id)⟩, true) := by
    intro id
    unfold sign_data
    rw [hd, hsk]
    simp [secretKeyFromBytes, hlen, ed25519SignRaw]
  have hpk : parse_public_key sk = .ok skBytes := by
    unfold parse_public_key
    rw [hexToBytes_of_parse hsk]
    show (if skBytes.length = 32 then Except.ok skBytes
      else Except.error AbiError.invalidEncoding) = Except.ok skBytes
    rw [hlen]
    simp
  refine ⟨⟨skBytes, extendWithSignatureId dataBytes (some id1)⟩,
          ⟨skBytes, extendWithSignatureId dataBytes (some id2)⟩,
          by rw [hsign id1], by rw [hsign id2], ?_, ?_, ?_⟩
  · intro h
    exact hmsgne (congrArg Ed25519Signature.message h)
  · rw [verify_signature_eval hpk hd]
    simp only [ed25519Verify, ed25519PublicKeyOf, Except.ok.injEq]
    simp [hmsgne]
  · rw [verify_signature_eval hpk hd]
    simp only [ed25519Verify, ed25519PublicKeyOf, Except.ok.injEq]
    have : extendWithSignatureId dataBytes (some id2) ≠
        extendWithSignatureId dataBytes (some id1) := fun h => hmsgne h.symm
    simp [this]

/-- Witness for C2: the all-zero 32-byte secret key, empty data, and the two
domain ids 0 and 1. -/
theorem sign_data_domain_separation_witness :
    ∃ sig1 sig2,
      (sign_data "0000000000000000000000000000000000000000000000000000000000000000"
          "" (some 0)).1 = .ok sig1 ∧
      (sign_data "0000000000000000000000000000000000000000000000000000000000000000"
          "" (some 1)).1 = .ok sig2 ∧
      sig1 ≠ sig2 ∧
      verify_signature
        "0000000000000000000000000000000000000000000000000000000000000000"
        "" sig1 (some 1) = .ok false ∧
      verify_signature
        "0000000000000000000000000000000000000000000000000000000000000000"
        "" sig2 (some 0) = .ok false :=
  sign_data_domain_separation _ _
    [0, 0, 0, 0, 0, 0, 0, 0, 0, 0, 0, 0, 0, 0, 0, 0,
     0, 0, 0, 0, 0, 0, 0, 0, 0, 0, 0, 0, 0, 0, 0, 0] [] 0 1
    rfl (by decide) rfl (by decide)
    (by constructor <;> decide) (by constructor <;> decide)

theorem digitChar_toNat {d : Nat} (h : d ≤ 9) : (digitChar d).toNat = 48 + d := by
  interval_cases d <;> decide

theorem isDigit_digitChar {d : Nat} (h : d ≤ 9) : isDigit (digitChar d) = true := by
  interval_cases d <;> decide

theorem digitsToNat_from (init : Nat) (l : List Char) :
    l.foldl (fun acc c => acc * 10 + (c.toNat - 48)) init =
      init * 10 ^ l.length + digitsToNat l := by
  induction l generalizing init with
  | nil => simp [digitsToNat]
  | cons c cs ih =>
    simp only [List.foldl_cons, digitsToNat, List.length_cons]
    rw [ih (init * 10 + (c.toNat - 48)), ih (0 * 10 + (c.toNat - 48))]
    ring

theorem digitsToNat_cons (c : Char) (cs : List Char) :
    digitsToNat (c :: cs) = (c.toNat - 48) * 10 ^ cs.length + digitsToNat cs := by
  simp only [digitsToNat, List.foldl_cons]
  have := digitsToNat_from (0 * 10 + (c.toNat - 48)) cs
  simpa [digitsToNat] using this

theorem natToDecCharsAux_value (fuel : Nat) :
    ∀ n acc, n ≤ fuel →
      digitsToNat (natToDecCharsAux fuel n acc) = n * 10 ^ acc.length + digitsToNat acc := by
  induction fuel with
  | zero =>
    intro n acc h
    have hn : n = 0 := Nat.le_zero.mp h
    simp [natToDecCharsAux, hn]
  | succ fuel ih =>
    intro n acc h
    by_cases hn : n = 0
    · simp [natToDecCharsAux, hn]
    · have hdiv : n / 10 ≤ fuel := by
        have : n / 10 < n := Nat.div_lt_self (Nat.pos_of_ne_zero hn) (by omega)
        omega
      have hrec := ih (n / 10) (digitChar (n % 10) :: acc) hdiv
      simp only [natToDecCharsAux, hn, if_false]
      rw [hrec]
      rw [digitsToNat_cons]
      have hd9 : n % 10 ≤ 9 := by omega
      rw [digitChar_toNat hd9]
      have hmod : 48 + n % 10 - 48 = n % 10 := by omega
      rw [hmod]
      have hsplit : 10 * (n / 10) + n % 10 = n := Nat.div_add_mod n 10
      have expand : n / 10 * 10 ^ (acc.length + 1) + (n % 10 * 10 ^ acc.length + digitsToNat acc)
          = (10 * (n / 10) + n % 10) * 10 ^ acc.length + digitsToNat acc := by
        ring
      simp only [List.length_cons]
      rw [expand, hsplit]

theorem natToDecCharsAux_digits (fuel : Nat) :
    ∀ n acc, (∀ c ∈ acc, isDigit c = true) →
      ∀ c ∈ natToDecCharsAux fuel n acc, isDigit c = true := by
  induction fuel with
  | zero => intro n acc hacc; simpa [natToDecCharsAux] using hacc
  | succ fuel ih =>
    intro n acc hacc c hc
    by_cases hn : n = 0
    · simp only [natToDecCharsAux, hn, if_true] at hc
      exact hacc c hc
    · simp only [natToDecCharsAux, hn, if_false] at hc
      refine ih (n / 10) (digitChar (n % 10) :: acc) ?_ c hc
      intro c' hc'
      rcases List.mem_cons.mp hc' with h | h
      · subst h; exact isDigit_digitChar (by omega)
      · exact hacc c' h

theorem natToDecCharsAux_suffix (fuel : Nat) :
    ∀ n acc, ∃ pre, natToDecCharsAux fuel n acc = pre ++ acc := by
  induction fuel with
  | zero => intro n acc; exact ⟨[], rfl⟩
  | succ fuel ih =>
    intro n acc
    by_cases hn : n = 0
    · exact ⟨[], by simp [natToDecCharsAux, hn]⟩
    · obtain ⟨pre, hpre⟩ := ih (n / 10) (digitChar (n % 10) :: acc)
      refine ⟨pre ++ [digitChar (n % 10)], ?_⟩
      simp only [natToDecCharsAux, hn, if_false]
      rw [hpre]; simp

theorem natToDecChars_digits (n : Nat) : ∀ c ∈ natToDecChars n, isDigit c = true := by
  unfold natToDecChars
  by_cases hn : n = 0
  · simp only [hn, if_true]
    intro c hc
    simp only [List.mem_singleton] at hc
    subst hc
    decide
  · simp only [hn, if_false]
    exact natToDecCharsAux_digits n n [] (by simp)

theorem natToDecChars_ne_nil (n : Nat) : natToDecChars n ≠ [] := by
  unfold natToDecChars
  by_cases hn : n = 0
  · simp [hn]
  · simp only [hn, if_false]
    obtain ⟨m, hm⟩ : ∃ m, n = m + 1 := ⟨n - 1, by omega⟩
    subst hm
    simp only [natToDecCharsAux, hn, if_false]
    obtain ⟨pre, hpre⟩ := natToDecCharsAux_suffix m ((m + 1) / 10) [digitChar ((m + 1) % 10)]
    rw [hpre]
    simp

theorem natToDecChars_value (n : Nat) : digitsToNat (natToDecChars n) = n := by
  unfold natToDecChars
  by_cases hn : n = 0
  · simp [hn, digitsToNat]
  · simp only [hn, if_false]
    have := natToDecCharsAux_value n n [] le_rfl
    simpa [digitsToNat] using this

theorem parseDecNatChars_natToDecChars (n : Nat) :
    parseDecNatChars (natToDecChars n) = some n := by
  unfold parseDecNatChars
  have hne : (natToDecChars n).isEmpty = false := by
    cases h : natToDecChars n with
    | nil => exact absurd h (natToDecChars_ne_nil n)
    | cons c cs => rfl
  rw [hne]
  have hall : (natToDecChars n).all isDigit = true :=
    List.all_eq_true.mpr (natToDecChars_digits n)
  rw [hall]
  simp [natToDecChars_value n]

theorem natToDecChars_head_not_minus (n : Nat) (c : Char) (cs : List Char)
    (h : natToDecChars n = c :: cs) : c ≠ '-' := by
  have hd : isDigit c = true := natToDecChars_digits n c (by rw [h]; simp)
  intro hcontra
  subst hcontra
  simp [isDigit] at hd

/-- Numeric-string normalization round trip: parsing the canonical decimal
string of an integer recovers the integer. -/
theorem parseDecInt_intToDecString (v : Int) : parseDecInt (intToDecString v) = some v := by
  unfold parseDecInt intToDecString
  by_cases hv : v < 0
  · simp only [hv, if_true]
    show parseDecIntChars ('-' :: natToDecChars (-v).toNat) = some v
    have hcast : (((-v).toNat : Int)) = -v := by omega
    simp [parseDecIntChars, parseDecNatChars_natToDecChars, hcast]
  · simp only [hv, if_false]
    show parseDecIntChars (natToDecChars v.toNat) = some v
    cases h : natToDecChars v.toNat with
    | nil => exact absurd h (natToDecChars_ne_nil _)
    | cons c cs =>
      have hcm : c ≠ '-' := natToDecChars_head_not_minus _ c cs h
      have hparse : parseDecNatChars (c :: cs) = some v.toNat := by
        rw [← h]; exact parseDecNatChars_natToDecChars _
      have hcast : ((v.toNat : Int)) = v := by omega
      simp [parseDecIntChars, hcm, hparse, hcast]

/-! ### Round-trip infrastructure: monadic destructors and list facts -/

theorem ebind_ok {α β : Type} (a : α) (f : α → Except AbiError β) :
    (Except.ok a >>= f) = f a := rfl

theorem ebind_error {α β : Type} (e : AbiError) (f : α → Except AbiError β) :
    ((Except.error e : Except AbiError α) >>= f) = Except.error e := rfl

theorem ebind_ok_destruct {α β : Type} {e1 : Except AbiError α}
    {f : α → Except AbiError β} {b : β} (h : (e1 >>= f) = .ok b) :
    ∃ a, e1 = .ok a ∧ f a = .ok b := by
  cases e1 with
  | error e => rw [ebind_error] at h; exact absurd h (by simp)
  | ok a => exact ⟨a, rfl, by rw [ebind_ok] at h; exact h⟩

theorem emap_ok_destruct {α β : Type} {e1 : Except AbiError α} {f : α → β} {b : β}
    (h : e1.map f = .ok b) : ∃ a, e1 = .ok a ∧ f a = b := by
  cases e1 with
  | error e => simp [Except.map] at h
  | ok a => exact ⟨a, rfl, by simpa [Except.map] using h⟩

theorem beqComm {α : Type} [BEq α] [LawfulBEq α] (a b : α) : (a == b) = (b == a) := by
  by_cases h : a = b
  · subst h; rfl
  · rw [beq_eq_false_iff_ne.mpr h, beq_eq_false_iff_ne.mpr (Ne.symm h)]

theorem lookup_cons_self {α : Type} (n : String) (v : α) (l : List (String × α)) :
    ((n, v) :: l).lookup n = some v := by
  simp [List.lookup]

theorem lookup_cons_ne {α : Type} {n n' : String} (v : α) (l : List (String × α))
    (h : n' ≠ n) : ((n, v) :: l).lookup n' = l.lookup n' := by
  simp [List.lookup, beq_eq_false_iff_ne.mpr h]

theorem allDifferent_cons {s : String} {rest : List String}
    (h : allDifferent (s :: rest) = true) :
    rest.contains s = false ∧ allDifferent rest = true := by
  simp only [allDifferent, Bool.and_eq_true, Bool.not_eq_true'] at h
  exact h

theorem contains_false_not_mem {s : String} {l : List String}
    (h : l.contains s = false) : ¬ s ∈ l := by
  induction l with
  | nil => intro hmem; cases hmem
  | cons a l ih =>
    intro hmem
    rw [List.contains_cons] at h
    rcases List.mem_cons.mp hmem with heq | hm
    · subst heq; simp at h
    · refine ih ?_ hm
      cases hc : l.contains s
      · rfl
      · rw [hc] at h; simp at h

theorem wfFields_mem : ∀ {fs : ParameterSchema}, wfFields fs = true →
    ∀ {n : String} {t : StrictType}, (n, t) ∈ fs → t.wf = true := by
  intro fs
  induction fs with
  | nil => intro _ _ _ hmem; cases hmem
  | cons p fs ih =>
    obtain ⟨n', t'⟩ := p
    intro h n t hmem
    simp only [wfFields, Bool.and_eq_true] at h
    rcases List.mem_cons.mp hmem with heq | hm
    · injection heq with h1 h2; rw [h2]; exact h.1
    · exact ih h.2 hm

theorem insertEntry_perm (x : StrictValue × StrictValue)
    (l : List (StrictValue × StrictValue)) : (insertEntry x l).Perm (x :: l) := by
  induction l with
  | nil => simp [insertEntry]
  | cons y ys ih =>
    simp only [insertEntry]
    split
    · exact List.Perm.refl _
    · exact (ih.cons y).trans (List.Perm.swap x y ys)

theorem sortEntriesByKey_perm (l : List (StrictValue × StrictValue)) :
    (sortEntriesByKey l).Perm l := by
  induction l with
  | nil => simp [sortEntriesByKey]
  | cons x xs ih =>
    exact (insertEntry_perm x (sortEntriesByKey xs)).trans (ih.cons x)

theorem decodeMapEntries_eq_map (es : List (StrictValue × StrictValue)) :
    decodeMapEntries es = es.map fun e => (svKeyString e.1, decodeValue e.2) := by
  induction es with
  | nil => simp [decodeMapEntries]
  | cons e es ih =>
    obtain ⟨k, v⟩ := e
    simp [decodeMapEntries, ih]

theorem mapSubEquiv_eq_all (kt vt : StrictType) (a b : List (String × HostValue)) :
    mapSubEquiv kt vt a b = a.all fun e => hvFindMatch kt vt e.1 e.2 b := by
  induction a with
  | nil => simp [mapSubEquiv]
  | cons e a ih =>
    obtain ⟨k, v⟩ := e
    simp [mapSubEquiv, ih]

theorem hvFindMatch_eq_any (kt vt : StrictType) (k : String) (v : HostValue)
    (b : List (String × HostValue)) :
    hvFindMatch kt vt k v b = b.any fun e => canonKeyEq kt k e.1 && hvEquiv vt v e.2 := by
  induction b with
  | nil => simp [hvFindMatch]
  | cons e b ih =>
    obtain ⟨k', v'⟩ := e
    simp [hvFindMatch, ih]

theorem forallTwo_mem_left {α β : Type} {R : α → β → Prop} :
    ∀ {l1 : List α} {l2 : List β}, List.Forall₂ R l1 l2 →
    ∀ a ∈ l1, ∃ b ∈ l2, R a b := by
  intro l1 l2 h
  induction h with
  | nil => intro a ha; cases ha
  | cons hR hrest ih =>
    intro a ha
    rcases List.mem_cons.mp ha with heq | hm
    · subst heq; exact ⟨_, by simp, hR⟩
    · obtain ⟨b, hb, hRb⟩ := ih a hm
      exact ⟨b, by simp [hb], hRb⟩

theorem forallTwo_mem_right {α β : Type} {R : α → β → Prop} :
    ∀ {l1 : List α} {l2 : List β}, List.Forall₂ R l1 l2 →
    ∀ b ∈ l2, ∃ a ∈ l1, R a b := by
  intro l1 l2 h
  induction h with
  | nil => intro b hb; cases hb
  | cons hR hrest ih =>
    intro b hb
    rcases List.mem_cons.mp hb with heq | hm
    · subst heq; exact ⟨_, by simp, hR⟩
    · obtain ⟨a, ha, hRa⟩ := ih b hm
      exact ⟨a, by simp [ha], hRa⟩

theorem encodeMapEntries_forall (kt vt : StrictType) :
    ∀ (m : List (String × HostValue)) (entries : List (StrictValue × StrictValue)),
    encodeMapEntries kt vt m = .ok entries →
    List.Forall₂ (fun (e : String × HostValue) (se : StrictValue × StrictValue) =>
      encodeValue kt (.str e.1) = .ok se.1 ∧ encodeValue vt e.2 = .ok se.2) m entries := by
  intro m
  induction m with
  | nil =>
    intro entries h
    simp only [encodeMapEntries] at h
    have he : ([] : List (StrictValue × StrictValue)) = entries := Except.ok.inj h
    rw [← he]
    exact List.Forall₂.nil
  | cons e m ih =>
    obtain ⟨k, v⟩ := e
    intro entries h
    simp only [encodeMapEntries] at h
    obtain ⟨kv, hkv, h⟩ := ebind_ok_destruct h
    obtain ⟨vv, hvv, h⟩ := ebind_ok_destruct h
    obtain ⟨tail, ht, h⟩ := ebind_ok_destruct h
    have he : (kv, vv) :: tail = entries := Except.ok.inj h
    rw [← he]
    exact List.Forall₂.cons ⟨hkv, hvv⟩ (ih tail ht)

theorem encode_key_canon {kt : StrictType} (hk : isMapKeyType kt = true)
    {k : String} {kv : StrictValue} (henc : encodeValue kt (.str k) = .ok kv) :
    canonKey kt (svKeyString kv) = canonKey kt k ∧ (canonKey kt k).isSome = true := by
  cases kt <;> simp [isMapKeyType] at hk
  case int w s =>
    rw [encodeValue_int_eval] at henc
    cases hp : parseDecInt k with
    | none => rw [hp] at henc; simp at henc
    | some x =>
      simp only [hp] at henc
      by_cases hfit : intFits w s x = true
      · rw [if_pos hfit] at henc
        have hkv : kv = .int w s x := (Except.ok.inj henc).symm
        subst hkv
        simp [svKeyString, canonKey, hp, parseDecInt_intToDecString]
      · rw [if_neg hfit] at henc; simp at henc
  case string =>
    have h2 : encodeValue .string (.str k) = .ok (.str k) := by simp [encodeValue]
    have hkv := Except.ok.inj (h2.symm.trans henc)
    subst hkv
    simp [svKeyString, canonKey]

theorem canonKeyEq_of_encode {kt : StrictType} (hk : isMapKeyType kt = true)
    {k : String} {kv : StrictValue} (henc : encodeValue kt (.str k) = .ok kv) :
    canonKeyEq kt (svKeyString kv) k = true ∧ canonKeyEq kt k (svKeyString kv) = true := by
  obtain ⟨h1, h2⟩ := encode_key_canon hk henc
  unfold canonKeyEq
  rw [h1]
  cases hc : canonKey kt k with
  | none => rw [hc] at h2; simp at h2
  | some a => simp

theorem hvEquiv_optional_not_null (t' : StrictType) (a b : HostValue)
    (hb : b ≠ .null) : hvEquiv (.optional t') a b = hvEquiv t' a b := by
  cases b with
  | null => exact absurd rfl hb
  | bool x => cases a <;> simp [hvEquiv]
  | str s => cases a <;> simp [hvEquiv]
  | list xs => cases a <;> simp [hvEquiv]
  | map m => cases a <;> simp [hvEquiv]

/-! ### Symmetry of the host-value equivalence -/

theorem hvEquivList_symm (t : StrictType)
    (IH : ∀ a b, hvEquiv t a b = hvEquiv t b a) :
    ∀ as bs, hvEquivList t as bs = hvEquivList t bs as := by
  intro as
  induction as with
  | nil => intro bs; cases bs <;> simp [hvEquivList]
  | cons a as ih =>
    intro bs
    cases bs with
    | nil => simp [hvEquivList]
    | cons b bs =>
      simp only [hvEquivList]
      rw [IH a b, ih bs]

theorem hvEquivFields_symm : ∀ (fs : ParameterSchema),
    (∀ n t, (n, t) ∈ fs → ∀ a b, hvEquiv t a b = hvEquiv t b a) →
    ∀ a b, hvEquivFields fs a b = hvEquivFields fs b a := by
  intro fs
  induction fs with
  | nil => intro _ a b; simp [hvEquivFields]
  | cons p fs ih =>
    intro IH a b
    obtain ⟨n, t⟩ := p
    simp only [hvEquivFields]
    rw [IH n t (by simp) _ _, ih (fun n' t' h => IH n' t' (List.mem_cons_of_mem _ h)) a b]

theorem hvEquiv_symm : ∀ (t : StrictType) (a b : HostValue),
    hvEquiv t a b = hvEquiv t b a
  | .bool, a, b => by
    cases a <;> cases b <;> simp [hvEquiv, beqComm]
  | .int w s, a, b => by
    cases a <;> cases b <;> simp [hvEquiv]
    case str.str x y =>
      cases hx : parseDecInt x <;> cases hy : parseDecInt y <;>
        simp [hvEquiv, hx, hy, beqComm]
  | .string, a, b => by
    cases a <;> cases b <;> simp [hvEquiv, beqComm]
  | .array t', a, b => by
    cases a <;> cases b <;> simp [hvEquiv]
    case list.list as bs =>
      exact hvEquivList_symm t' (fun x y => hvEquiv_symm t' x y) as bs
  | .fixedArray t' n, a, b => by
    cases a <;> cases b <;> simp [hvEquiv]
    case list.list as bs =>
      exact hvEquivList_symm t' (fun x y => hvEquiv_symm t' x y) as bs
  | .tuple fs, a, b => by
    cases a <;> cases b <;> simp [hvEquiv]
    case map.map am bm =>
      exact hvEquivFields_symm fs
        (fun n t hmem x y => hvEquiv_symm t x y) am bm
  | .optional t', a, b => by
    cases a <;> cases b <;> simp [hvEquiv] <;>
      exact hvEquiv_symm t' _ _
  | .map kt vt, a, b => by
    cases a <;> cases b <;> simp [hvEquiv]
    case map.map am bm =>
      have hlen : (am.length == bm.length) = (bm.length == am.length) := beqComm _ _
      simp only [hvEquiv, hlen]
      cases mapSubEquiv kt vt am bm <;> cases mapSubEquiv kt vt bm am <;> simp
termination_by t a b => sizeOf t
decreasing_by
  all_goals simp_wf
  all_goals try omega
  all_goals (have hs := List.sizeOf_lt_of_mem hmem; simp at hs; omega)

/-! ### The round-trip law (spec section 4.2) -/

theorem encodeList_decode_equiv (t : StrictType)
    (IH : ∀ v sv, encodeValue t v = .ok sv → hvEquiv t (decodeValue sv) v = true) :
    ∀ xs svs, encodeList t xs = .ok svs →
      hvEquivList t (decodeList svs) xs = true := by
  intro xs
  induction xs with
  | nil =>
    intro svs h
    simp only [encodeList] at h
    have he : ([] : List StrictValue) = svs := Except.ok.inj h
    rw [← he]
    simp [decodeList, hvEquivList]
  | cons x xs ih =>
    intro svs h
    simp only [encodeList] at h
    obtain ⟨v, hv, h⟩ := ebind_ok_destruct h
    obtain ⟨vs, hvs, h⟩ := ebind_ok_destruct h
    have he : v :: vs = svs := Except.ok.inj h
    rw [← he]
    simp only [decodeList, hvEquivList]
    rw [IH x v hv, ih vs hvs]
    rfl

theorem hvEquivFields_skip (fs : ParameterSchema) (n : String) (dv : HostValue) :
    ∀ (a m : List (String × HostValue)), ¬ n ∈ fs.map Prod.fst →
      hvEquivFields fs ((n, dv) :: a) m = hvEquivFields fs a m := by
  induction fs with
  | nil => intro a m _; simp [hvEquivFields]
  | cons p fs ih =>
    obtain ⟨n', t'⟩ := p
    intro a m h
    simp only [List.map_cons, List.mem_cons] at h
    push_neg at h
    obtain ⟨hne, hnot⟩ := h
    simp only [hvEquivFields]
    rw [lookup_cons_ne dv a (Ne.symm hne), ih a m hnot]

theorem encodeFields_decode_equiv :
    ∀ (fs : ParameterSchema) (m : List (String × HostValue))
      (entries : List (String × StrictValue)),
    (∀ n t, (n, t) ∈ fs → ∀ v sv, encodeValue t v = .ok sv →
      hvEquiv t (decodeValue sv) v = true) →
    allDifferent (fs.map Prod.fst) = true →
    encodeFields fs m = .ok entries →
    hvEquivFields fs (decodeEntries entries) m = true := by
  intro fs
  induction fs with
  | nil => intro m entries _ _ _; simp [hvEquivFields]
  | cons p fs ih =>
    obtain ⟨n, t⟩ := p
    intro m entries IH hdist h
    simp only [List.map_cons] at hdist
    obtain ⟨hcont, hdist'⟩ := allDifferent_cons hdist
    have hnotin : ¬ n ∈ fs.map Prod.fst := contains_false_not_mem hcont
    have ihtail : ∀ rest, encodeFields fs m = .ok rest →
        hvEquivFields fs (decodeEntries rest) m = true := fun rest hr =>
      ih m rest (fun n' t' hm => IH n' t' (List.mem_cons_of_mem _ hm)) hdist' hr
    simp only [encodeFields] at h
    obtain ⟨sv, hsv, h⟩ := ebind_ok_destruct h
    obtain ⟨rest, hrest, h⟩ := ebind_ok_destruct h
    have hent : (n, sv) :: rest = entries := Except.ok.inj h
    rw [← hent]
    simp only [decodeEntries, hvEquivFields]
    have hhead : hvEquiv t
        ((((n, decodeValue sv) :: decodeEntries rest).lookup n).getD .null)
        ((m.lookup n).getD .null) = true := by
      rw [lookup_cons_self]
      cases hl : m.lookup n with
      | some v =>
        rw [hl] at hsv
        simp only [encodeFieldValue] at hsv
        simp only [Option.getD_some]
        exact IH n t (by simp) v sv hsv
      | none =>
        rw [hl] at hsv
        cases t with
        | optional t' =>
          simp only [encodeFieldValue] at hsv
          have hv : StrictValue.optionalVal none = sv := Except.ok.inj hsv
          rw [← hv]
          simp [decodeValue, hvEquiv]
        | bool => simp [encodeFieldValue] at hsv
        | int w s => simp [encodeFieldValue] at hsv
        | string => simp [encodeFieldValue] at hsv
        | array t' => simp [encodeFieldValue] at hsv
        | fixedArray t' k => simp [encodeFieldValue] at hsv
        | tuple fs' => simp [encodeFieldValue] at hsv
        | map kt vt => simp [encodeFieldValue] at hsv
    have htail : hvEquivFields fs
        ((n, decodeValue sv) :: decodeEntries rest) m = true := by
      rw [hvEquivFields_skip fs n (decodeValue sv) (decodeEntries rest) m hnotin]
      exact ihtail rest hrest
    rw [hhead, htail]
    rfl

theorem encode_optional_nonnull (t' : StrictType) (v : HostValue) (sv : StrictValue)
    (hv : v ≠ .null)
    (IH : ∀ sv', encodeValue t' v = .ok sv' → hvEquiv t' (decodeValue sv') v = true)
    (henc : encodeValue (.optional t') v = .ok sv) :
    hvEquiv (.optional t') (decodeValue sv) v = true := by
  cases v with
  | null => exact absurd rfl hv
  | bool b =>
    simp only [encodeValue] at henc
    obtain ⟨sv', he, hfe⟩ := emap_ok_destruct henc
    rw [← hfe]
    simp only [decodeValue]
    rw [hvEquiv_optional_not_null t' _ _ (by simp)]
    exact IH sv' he
  | str s =>
    simp only [encodeValue] at henc
    obtain ⟨sv', he, hfe⟩ := emap_ok_destruct henc
    rw [← hfe]
    simp only [decodeValue]
    rw [hvEquiv_optional_not_null t' _ _ (by simp)]
    exact IH sv' he
  | list xs =>
    simp only [encodeValue] at henc
    obtain ⟨sv', he, hfe⟩ := emap_ok_destruct henc
    rw [← hfe]
    simp only [decodeValue]
    rw [hvEquiv_optional_not_null t' _ _ (by simp)]
    exact IH sv' he
  | map m =>
    simp only [encodeValue] at henc
    obtain ⟨sv', he, hfe⟩ := emap_ok_destruct henc
    rw [← hfe]
    simp only [decodeValue]
    rw [hvEquiv_optional_not_null t' _ _ (by simp)]
    exact IH sv' he

/-- The central round-trip fact: a host value that encodes against a
well-formed strict type decodes back, from the encoded strict value, to a
host value equivalent to the original up to numeric-string normalization and
map reordering. -/
theorem encode_decode_equiv : ∀ (t : StrictType) (v : HostValue) (sv : StrictValue),
    t.wf = true → encodeValue t v = .ok sv → hvEquiv t (decodeValue sv) v = true
  | .bool, v, sv => fun _ henc => by
    cases v with
    | bool b =>
      simp only [encodeValue] at henc
      have he : StrictValue.bool b = sv := Except.ok.inj henc
      rw [← he]
      simp [decodeValue, hvEquiv]
    | null => simp [encodeValue] at henc
    | str s => simp [encodeValue] at henc
    | list xs => simp [encodeValue] at henc
    | map m => simp [encodeValue] at henc
  | .int w s, v, sv => fun _ henc => by
    cases v with
    | str a =>
      rw [encodeValue_int_eval] at henc
      cases hp : parseDecInt a with
      | none => rw [hp] at henc; simp at henc
      | some x =>
        simp only [hp] at henc
        by_cases hfit : intFits w s x = true
        · rw [if_pos hfit] at henc
          have he : StrictValue.int w s x = sv := Except.ok.inj henc
          rw [← he]
          simp [decodeValue, hvEquiv, parseDecInt_intToDecString, hp]
        · rw [if_neg hfit] at henc; simp at henc
    | null => simp [encodeValue] at henc
    | bool b => simp [encodeValue] at henc
    | list xs => simp [encodeValue] at henc
    | map m => simp [encodeValue] at henc
  | .string, v, sv => fun _ henc => by
    cases v with
    | str a =>
      simp only [encodeValue] at henc
      have he : StrictValue.str a = sv := Except.ok.inj henc
      rw [← he]
      simp [decodeValue, hvEquiv]
    | null => simp [encodeValue] at henc
    | bool b => simp [encodeValue] at henc
    | list xs => simp [encodeValue] at henc
    | map m => simp [encodeValue] at henc
  | .array t', v, sv => fun hwf henc => by
    have hwf' : t'.wf = true := by simpa [StrictType.wf] using hwf
    cases v with
    | list xs =>
      simp only [encodeValue] at henc
      obtain ⟨svs, he, hfe⟩ := emap_ok_destruct henc
      rw [← hfe]
      simp only [decodeValue, hvEquiv]
      exact encodeList_decode_equiv t'
        (fun v sv h => encode_decode_equiv t' v sv hwf' h) xs svs he
    | null => simp [encodeValue] at henc
    | bool b => simp [encodeValue] at henc
    | str a => simp [encodeValue] at henc
    | map m => simp [encodeValue] at henc
  | .fixedArray t' n, v, sv => fun hwf henc => by
    have hwf' : t'.wf = true := by simpa [StrictType.wf] using hwf
    cases v with
    | list xs =>
      rw [encodeValue_fixedArray_eval] at henc
      by_cases hlen : xs.length = n
      · rw [if_neg (by simp [hlen])] at henc
        obtain ⟨svs, he, hfe⟩ := emap_ok_destruct henc
        rw [← hfe]
        simp only [decodeValue, hvEquiv]
        exact encodeList_decode_equiv t'
          (fun v sv h => encode_decode_equiv t' v sv hwf' h) xs svs he
      · rw [if_pos hlen] at henc; simp at henc
    | null => simp [encodeValue] at henc
    | bool b => simp [encodeValue] at henc
    | str a => simp [encodeValue] at henc
    | map m => simp [encodeValue] at henc
  | .tuple fs, v, sv => fun hwf henc => by
    simp only [StrictType.wf, Bool.and_eq_true] at hwf
    cases v with
    | map m =>
      simp only [encodeValue] at henc
      obtain ⟨fentries, he, hfe⟩ := emap_ok_destruct henc
      rw [← hfe]
      simp only [decodeValue, hvEquiv]
      exact encodeFields_decode_equiv fs m fentries
        (fun n t hmem v sv h =>
          encode_decode_equiv t v sv (wfFields_mem hwf.2 hmem) h)
        hwf.1 he
    | null => simp [encodeValue] at henc
    | bool b => simp [encodeValue] at henc
    | str a => simp [encodeValue] at henc
    | list xs => simp [encodeValue] at henc
  | .optional t', v, sv => fun hwf henc => by
    have hwf' : t'.wf = true := by simpa [StrictType.wf] using hwf
    cases v with
    | null =>
      simp only [encodeValue] at henc
      have he : StrictValue.optionalVal none = sv := Except.ok.inj henc
      rw [← he]
      simp [decodeValue, hvEquiv]
    | bool b =>
      exact encode_optional_nonnull t' (.bool b) sv (by simp)
        (fun sv' he => encode_decode_equiv t' (.bool b) sv' hwf' he) henc
    | str a =>
      exact encode_optional_nonnull t' (.str a) sv (by simp)
        (fun sv' he => encode_decode_equiv t' (.str a) sv' hwf' he) henc
    | list xs =>
      exact encode_optional_nonnull t' (.list xs) sv (by simp)
        (fun sv' he => encode_decode_equiv t' (.list xs) sv' hwf' he) henc
    | map m =>
      exact encode_optional_nonnull t' (.map m) sv (by simp)
        (fun sv' he => encode_decode_equiv t' (.map m) sv' hwf' he) henc
  | .map kt vt, v, sv => fun hwf henc => by
    simp only [StrictType.wf, Bool.and_eq_true] at hwf
    obtain ⟨⟨hk, kwf⟩, vwf⟩ := hwf
    cases v with
    | map m =>
      simp only [encodeValue] at henc
      obtain ⟨entries, hme, henc⟩ := ebind_ok_destruct henc
      by_cases hdist : allDifferent (entries.map fun e => svKeyString e.1) = true
      · rw [if_pos hdist] at henc
        have hsv : StrictValue.map (sortEntriesByKey entries) = sv := Except.ok.inj henc
        rw [← hsv]
        have hperm := sortEntriesByKey_perm entries
        have hfor := encodeMapEntries_forall kt vt m entries hme
        have hlen : entries.length = m.length := (List.Forall₂.length_eq hfor).symm
        simp only [decodeValue, decodeMapEntries_eq_map, hvEquiv,
          Bool.and_eq_true]
        refine ⟨⟨?_, ?_⟩, ?_⟩
        · have hl : ((sortEntriesByKey entries).map
              fun e => (svKeyString e.1, decodeValue e.2)).length = m.length := by
            rw [List.length_map, hperm.length_eq, hlen]
          simp [hl]
        · rw [mapSubEquiv_eq_all]
          apply List.all_eq_true.mpr
          intro e hmem
          obtain ⟨se, hse, hfe⟩ := List.mem_map.mp hmem
          have hseE : se ∈ entries := hperm.mem_iff.mp hse
          obtain ⟨a, haM, hR⟩ := forallTwo_mem_right hfor se hseE
          obtain ⟨k, v⟩ := a
          obtain ⟨kv, vv⟩ := se
          obtain ⟨hkenc, hvenc⟩ := hR
          rw [← hfe]
          rw [hvFindMatch_eq_any]
          apply List.any_eq_true.mpr
          refine ⟨(k, v), haM, ?_⟩
          have h1 := (canonKeyEq_of_encode hk hkenc).1
          have h2 : hvEquiv vt (decodeValue vv) v = true :=
            encode_decode_equiv vt v vv vwf hvenc
          simp [h1, h2]
        · rw [mapSubEquiv_eq_all]
          apply List.all_eq_true.mpr
          intro e hmem
          obtain ⟨se, hseE, hR⟩ := forallTwo_mem_left hfor e hmem
          obtain ⟨kv, vv⟩ := se
          obtain ⟨hkenc, hvenc⟩ := hR
          rw [hvFindMatch_eq_any]
          apply List.any_eq_true.mpr
          refine ⟨(svKeyString kv, decodeValue vv),
            List.mem_map.mpr ⟨(kv, vv), hperm.mem_iff.mpr hseE, rfl⟩, ?_⟩
          have h1 := (canonKeyEq_of_encode hk hkenc).2
          have h2 : hvEquiv vt (decodeValue vv) e.2 = true :=
            encode_decode_equiv vt e.2 vv vwf hvenc
          rw [hvEquiv_symm vt (decodeValue vv) e.2] at h2
          simp [h1, h2]
      · rw [if_neg hdist] at henc; simp at henc
    | null => simp [encodeValue] at henc
    | bool b => simp [encodeValue] at henc
    | str a => simp [encodeValue] at henc
    | list xs => simp [encodeValue] at henc
termination_by t v sv => sizeOf t
decreasing_by
  all_goals simp_wf
  all_goals try omega
  all_goals (have hs := List.sizeOf_lt_of_mem hmem; simp at hs; omega)

/-! ### C1: the round-trip law at the schema level -/

/-- C1: round-trip of the structured value codec.  For every well-formed
parameter schema and every host value mapping that validates against it
(encoding succeeds — the value-conversion direction of `packIntoCell`),
decoding the encoded value sequence (the direction of `unpackFromCell`, the
external cell serializer being a faithful inverse pair on strict values)
returns the original mapping up to the numeric-string normalization of
integer scalars and up to map key reordering; lists and tuples preserve
order.  `hvEquivFields` is exactly that tolerance. -/
theorem pack_unpack_roundtrip (schema : ParameterSchema)
    (m : List (String × HostValue)) (tokens : List (String × StrictValue))
    (hwf : schemaWF schema = true)
    (henc : encodeFields schema m = .ok tokens) :
    hvEquivFields schema (decodeEntries tokens) m = true := by
  unfold schemaWF at hwf
  rw [Bool.and_eq_true] at hwf
  exact encodeFields_decode_equiv schema m tokens
    (fun n t hmem v sv h => encode_decode_equiv t v sv (wfFields_mem hwf.2 hmem) h)
    hwf.1 henc

/-- Witness for C1: a schema with an 8-bit integer, a nested tuple, an absent
optional parameter and an integer-keyed map; the input mapping uses the
non-canonical integer literal `"007"`, a different parameter order than the
schema, and map keys out of canonical order. -/
theorem pack_unpack_roundtrip_witness :
    hvEquivFields
      [("a", .int 8 false), ("b", .tuple [("x", .string)]),
       ("c", .optional .bool), ("d", .map (.int 8 false) .string)]
      (decodeEntries
        [("a", .int 8 false 7), ("b", .tuple [("x", .str "hi")]),
         ("c", .optionalVal none),
         ("d", .map [(.int 8 false 10, .str "u"), (.int 8 false 2, .str "v")])])
      [("d", .map [("2", .str "v"), ("10", .str "u")]),
       ("b", .map [("x", .str "hi")]), ("a", .str "007")] = true :=
  pack_unpack_roundtrip
    [("a", .int 8 false), ("b", .tuple [("x", .string)]),
     ("c", .optional .bool), ("d", .map (.int 8 false) .string)]
    [("d", .map [("2", .str "v"), ("10", .str "u")]),
     ("b", .map [("x", .str "hi")]), ("a", .str "007")]
    [("a", .int 8 false 7), ("b", .tuple [("x", .str "hi")]),
     ("c", .optionalVal none),
     ("d", .map [(.int 8 false 10, .str "u"), (.int 8 false 2, .str "v")])]
    (by simp [schemaWF, wfFields, StrictType.wf, allDifferent, isMapKeyType])
    (by
      simp [encodeFields, encodeFieldValue, encodeValue, encodeList,
        encodeMapEntries, List.lookup]
      rfl)

end NekotonWasm
